import Mathlib

/- Verification of the call-graph aggregation engine of `explore-with-gdb`.

   Embedded sources:
   - `src/python/view_call_graph.py` : `tidy` and the `StackTraceBreakpoint`
     class (set of function names, list of captured stacks, edge-set build).
   - `src/view_call_graph_interactive.py` : the variant that also stores
     per-capture locals and colors the selected stack's edges red.

   Python strings are modelled as `List Char`.  `str.replace(pat, "")` is
   `replaceAll` (left-to-right, non-overlapping removal of every occurrence),
   `re.split` on the two parenthesis characters is `splitParens`, the `[::2]`
   slice is `evens`, `"".join` is `List.join`.  All definitions are
   structural so that concrete inputs evaluate by `decide`. -/

/-- One (normalized) frame name, i.e. a Python string. -/
abbrev FrameName := List Char

/-- Occurrence test: `hasOccur pat s` decides whether `pat` occurs as a contiguous
    subsequence of `s` (the condition under which `str.replace` acts). -/
def hasOccur (pat : List Char) : List Char → Bool
  | [] => pat.isPrefixOf []
  | c :: rest => pat.isPrefixOf (c :: rest) || hasOccur pat rest

/-- Fuel-driven worker for `replaceAll`; with fuel `≥ s.length` it removes
    every occurrence of `pat` from `s`, scanning left to right and never
    rescanning removed material, exactly like Python `s.replace(pat, "")`. -/
def replaceAllAux (pat : List Char) : Nat → List Char → List Char
  | _, [] => []
  | 0, s => s
  | fuel + 1, c :: rest =>
    if pat.isPrefixOf (c :: rest) ∧ pat ≠ [] then
      replaceAllAux pat fuel ((c :: rest).drop pat.length)
    else
      c :: replaceAllAux pat fuel rest

/-- Python `s.replace(pat, "")` for a non-empty pattern. -/
def replaceAll (pat s : List Char) : List Char :=
  replaceAllAux pat s.length s

/-- Python `re.split` on the pattern matching a single `(` or `)` character:
    the list of maximal segments between parenthesis characters (always
    non-empty; an empty segment appears between adjacent parentheses and at
    the ends). -/
def splitParens : List Char → List (List Char)
  | [] => [[]]
  | c :: rest =>
    if c = '(' ∨ c = ')' then
      [] :: splitParens rest
    else
      match splitParens rest with
      | [] => [[c]]
      | seg :: segs => (c :: seg) :: segs

/-- The Python slice `[::2]`: the elements at even indices. -/
def evens : List α → List α
  | [] => []
  | [x] => [x]
  | x :: _ :: rest => x :: evens rest

/-- Definition of `tidy` from `view_call_graph.py` (the same function appears verbatim in
    `view_call_graph_interactive.py` and `print_stack.py`): strip the
    namespace prefixes, collapse the `CheckNotYetImplementedTestCase` family,
    then drop the odd-indexed segments of the split on parentheses. -/
def tidy (function_name : List Char) : List Char :=
  let s1 := replaceAll "arrow::".toList function_name
  let s2 := replaceAll "engine::".toList s1
  let s3 := replaceAll "std::".toList s2
  let s4 := replaceAll "(anonymous namespace)::".toList s3
  let s5 := if "CheckNotYetImplementedTestCase".toList.isPrefixOf s4 then
      "CheckNotYetImplementedTestCase".toList
    else
      s4
  (evens (splitParens s5)).flatten

namespace ViewCallGraph

/-- State of the `StackTraceBreakpoint` class of `view_call_graph.py`.
    The Python `set` field `function_names` is modelled as a duplicate-free
    list (insertion-ordered); only its membership reflects the source — a
    Python set carries no observable order, so the order in which
    `list(self.function_names)` enumerates it is modelled by quantifying
    over all permutations (`validEnum` below). -/
structure StackTraceBreakpoint where
  function_names : List FrameName
  stacks' : List (List FrameName)

/-- Python `set.add`: a no-op when the element is already a member. -/
def setAdd (s : List FrameName) (n : FrameName) : List FrameName :=
  if n ∈ s then s else s ++ [n]

/-- The `stop` method: walk the frame chain innermost-first, tidy each raw
    function name, append it to the new stack and add it to the name set,
    then append the stack to `stacks`.  `rawFrames` is the chain of raw
    frame names, innermost first. -/
def stop (bp : StackTraceBreakpoint) (rawFrames : List (List Char)) :
    StackTraceBreakpoint :=
  ⟨(rawFrames.map tidy).foldl setAdd bp.function_names,
   bp.stacks' ++ [rawFrames.map tidy]⟩

/-- The state right after `__init__`: empty name set, no stacks. -/
def initialState : StackTraceBreakpoint := ⟨[], []⟩

/-- A whole capture session: the breakpoint state after the given sequence
    of capture events (each event carrying its raw frame chain). -/
def runSession (raws : List (List (List Char))) : StackTraceBreakpoint :=
  raws.foldl stop initialState

/-- Enumeration validity: `L` is a possible value of `list(self.function_names)`: the set's
    elements, each exactly once, in some unspecified order.  Since the
    model keeps `function_names` duplicate-free, these are exactly the
    permutations of it. -/
def validEnum (s L : List FrameName) : Prop := L.Perm s

/-- Python `list.index`: the first index of `n` in `L`, `none` modelling
    the `ValueError` raised when `n` is absent. -/
def idxOf (L : List FrameName) (n : FrameName) : Option Nat :=
  match L with
  | [] => none
  | m :: rest => if m = n then some 0 else (idxOf rest n).map (· + 1)

/-- The inner loop of `create_and_view_graph`: for `i in range(len(stack)-1)`
    the pair `(index of stack[i+1], index of stack[i])` — caller first.
    `none` models an index lookup failure. -/
def stackEdges (L : List FrameName) : List FrameName → Option (List (Nat × Nat))
  | a :: b :: rest => do
    let f ← idxOf L b
    let t ← idxOf L a
    let es ← stackEdges L (b :: rest)
    pure ((f, t) :: es)
  | _ => some []

/-- One iteration of the outer loop of `create_and_view_graph`: add every
    index pair of one stack to the accumulated edge set. -/
def addStack (L : List FrameName) (acc : Option (Finset (Nat × Nat)))
    (stack : List FrameName) : Option (Finset (Nat × Nat)) := do
  let E ← acc
  let es ← stackEdges L stack
  pure (es.foldl (fun E p => insert p E) E)

/-- The edge set `self.edges` built by `create_and_view_graph` from the
    enumeration `L` of the function-name set: the set of distinct
    `(from_node, to_node)` index pairs over all captured stacks.  (The
    source stores `str(index)` pairs; `str` is injective on indices, so
    the set of string pairs is carried isomorphically by index pairs.) -/
def edges (L : List FrameName) (stks : List (List FrameName)) :
    Option (Finset (Nat × Nat)) :=
  stks.foldl (addStack L) (some ∅)

/-- The name pairs `(caller, callee)` of the adjacent frames of one stack
    (innermost first): `(stack[i+1], stack[i])` for each `i`. -/
def adjPairs : List FrameName → List (FrameName × FrameName)
  | a :: b :: rest => (b, a) :: adjPairs (b :: rest)
  | _ => []

/-- The set of distinct `(caller, callee)` name pairs observed across all
    stacks — the spec's notion of "distinct adjacent-frame pairs". -/
def namePairs (stks : List (List FrameName)) : Finset (FrameName × FrameName) :=
  stks.foldl (fun S stack => S ∪ (adjPairs stack).toFinset) ∅

end ViewCallGraph

namespace ViewCallGraphInteractive

/-- The per-capture locals snapshot: the list of `name`/`value` string pairs
    read from `frame.block()` at the stop.  Opaque to the graph logic. -/
abbrev Locals := List (List Char × List Char)

/-- State of the `StackTraceBreakpoint` class of
    `view_call_graph_interactive.py`: the function-name set (modelled as in
    `ViewCallGraph.StackTraceBreakpoint`) and the list of captured
    `(stack, locals)` pairs. -/
structure StackTraceBreakpoint where
  function_names : List FrameName
  stacks_and_locals : List (List FrameName × Locals)

/-- The `stop` method: read the locals of the selected frame, walk the
    frame chain innermost-first tidying each name, and append the
    `(stack, locals)` pair. -/
def stop (bp : StackTraceBreakpoint) (rawFrames : List (List Char))
    (frame_locals : Locals) : StackTraceBreakpoint :=
  ⟨(rawFrames.map tidy).foldl ViewCallGraph.setAdd bp.function_names,
   bp.stacks_and_locals ++ [(rawFrames.map tidy, frame_locals)]⟩

/-- The state right after `__init__`. -/
def initialState : StackTraceBreakpoint := ⟨[], []⟩

/-- A whole capture session of the interactive breakpoint. -/
def runSession (raws : List (List (List Char) × Locals)) : StackTraceBreakpoint :=
  raws.foldl (fun bp r => stop bp r.1 r.2) initialState

/-- The color string `"red"`. -/
def red : List Char := "red".toList

/-- The color string `"black"`. -/
def black : List Char := "black".toList

/-- The inner loop of the interactive `create_and_view_graph`: the colored
    index pairs `(from_node, to_node, color)` of one stack. -/
def stackEdgesC (L : List FrameName) (color : List Char) :
    List FrameName → Option (List (Nat × Nat × List Char))
  | a :: b :: rest => do
    let f ← ViewCallGraph.idxOf L b
    let t ← ViewCallGraph.idxOf L a
    let es ← stackEdgesC L color (b :: rest)
    pure ((f, t, color) :: es)
  | _ => some []

/-- The outer loop of the interactive `create_and_view_graph`, carrying the
    running stack index of `enumerate(self.stacks_and_locals)`.  The source
    colors a stack red when `stack_index is selected_stack_index` — object
    identity, not value equality.  The selected index object is produced by
    a different `enumerate` than the loop's, so the two are the same object
    exactly when they are equal ints that CPython interns: the cached
    small-int singletons (the nonnegative ones being 0..256).  For equal
    values above 256 the two fresh int objects are distinct and the check
    is `False`; it is also always `False` against `None` (the selected
    index is `none` when no row is selected).  The condition is therefore
    value equality conjoined with the interning bound `i ≤ 256`. -/
def edgesCAux (L : List FrameName) (selected : Option Nat) :
    Nat → Option (Finset (Nat × Nat × List Char)) →
      List (List FrameName × Locals) → Option (Finset (Nat × Nat × List Char))
  | _, acc, [] => acc
  | i, acc, (stack, _) :: rest =>
    edgesCAux L selected (i + 1)
      (do
        let E ← acc
        let es ← stackEdgesC L
          (if some i = selected ∧ i ≤ 256 then red else black) stack
        pure (es.foldl (fun E e => insert e E) E))
      rest

/-- The edge set built by the interactive `create_and_view_graph` from the
    enumeration `L` of the function-name set and the selected stack index:
    a set of `(from_node, to_node, color)` triples (one `dot.edge` call per
    element). -/
def edgesC (L : List FrameName) (selected : Option Nat)
    (stks : List (List FrameName × Locals)) :
    Option (Finset (Nat × Nat × List Char)) :=
  edgesCAux L selected 0 (some ∅) stks

/-- The highlighted subset of an edge set: the index pairs of its red
    triples. -/
def reds (E : Finset (Nat × Nat × List Char)) : Finset (Nat × Nat) :=
  (E.filter (fun e => e.2.2 = red)).image (fun e => (e.1, e.2.1))

end ViewCallGraphInteractive

/-- Every character of a Boolean prefix is a character of the string. -/
theorem mem_of_isPrefixOf {c : Char} :
    ∀ {pat s : List Char}, pat.isPrefixOf s = true → c ∈ pat → c ∈ s := by
  intro pat
  induction pat with
  | nil => intro s _ hc; cases hc
  | cons a as ih =>
    intro s hp hc
    cases s with
    | nil => simp [List.isPrefixOf] at hp
    | cons b bs =>
      simp only [List.isPrefixOf, Bool.and_eq_true, beq_iff_eq] at hp
      rcases List.mem_cons.mp hc with h | h
      · exact List.mem_cons.mpr (Or.inl (h.trans hp.1))
      · exact List.mem_cons.mpr (Or.inr (ih hp.2 h))

/-- When the pattern never occurs, `replaceAllAux` is the identity for any
    fuel. -/
theorem replaceAllAux_of_not_occur {pat : List Char} :
    ∀ (fuel : Nat) (s : List Char), hasOccur pat s = false →
      replaceAllAux pat fuel s = s := by
  intro fuel
  induction fuel with
  | zero => intro s _; cases s <;> rfl
  | succ n ih =>
    intro s h
    cases s with
    | nil => rfl
    | cons c rest =>
      simp only [hasOccur, Bool.or_eq_false_iff] at h
      rw [replaceAllAux, if_neg, ih rest h.2]
      intro hcontra
      rw [h.1] at hcontra
      exact Bool.false_ne_true hcontra.1

/-- When the pattern never occurs, Python `replace` leaves the string
    unchanged. -/
theorem replaceAll_of_not_occur {pat s : List Char}
    (h : hasOccur pat s = false) : replaceAll pat s = s :=
  replaceAllAux_of_not_occur s.length s h

/-- A pattern containing a character absent from the string never occurs. -/
theorem not_occur_of_not_mem {c : Char} {pat : List Char} (hc : c ∈ pat) :
    ∀ {s : List Char}, c ∉ s → hasOccur pat s = false := by
  intro s
  induction s with
  | nil =>
    intro _
    cases pat with
    | nil => cases hc
    | cons a as => rfl
  | cons b bs ih =>
    intro hs
    simp only [hasOccur, Bool.or_eq_false_iff]
    constructor
    · cases hpre : pat.isPrefixOf (b :: bs) with
      | false => rfl
      | true => exact absurd (mem_of_isPrefixOf hpre hc) hs
    · exact ih (fun hmem => hs (List.mem_cons.mpr (Or.inr hmem)))

/-- The split always yields at least one segment. -/
theorem splitParens_ne_nil (s : List Char) : splitParens s ≠ [] := by
  cases s with
  | nil => simp [splitParens]
  | cons c rest =>
    rw [splitParens]
    by_cases h : c = '(' ∨ c = ')'
    · simp [h]
    · rw [if_neg h]
      cases splitParens rest <;> simp

/-- No segment produced by `splitParens` contains a parenthesis. -/
theorem splitParens_no_paren :
    ∀ (s seg : List Char), seg ∈ splitParens s → '(' ∉ seg ∧ ')' ∉ seg := by
  intro s
  induction s with
  | nil =>
    intro seg hseg
    simp only [splitParens, List.mem_singleton] at hseg
    simp [hseg]
  | cons c rest ih =>
    intro seg hseg
    rw [splitParens] at hseg
    by_cases h : c = '(' ∨ c = ')'
    · rw [if_pos h] at hseg
      rcases List.mem_cons.mp hseg with h1 | h1
      · simp [h1]
      · exact ih seg h1
    · rw [if_neg h] at hseg
      push_neg at h
      cases hsp : splitParens rest with
      | nil => exact absurd hsp (splitParens_ne_nil rest)
      | cons seg0 segs =>
        rw [hsp] at hseg
        rcases List.mem_cons.mp hseg with h1 | h1
        · subst h1
          have h0 := ih seg0 (hsp ▸ List.mem_cons_self seg0 segs)
          constructor
          · intro hmem
            rcases List.mem_cons.mp hmem with h2 | h2
            · exact h.1 h2.symm
            · exact h0.1 h2
          · intro hmem
            rcases List.mem_cons.mp hmem with h2 | h2
            · exact h.2 h2.symm
            · exact h0.2 h2
        · exact ih seg (hsp ▸ List.mem_cons.mpr (Or.inr h1))

/-- The even-indexed elements form a subcollection. -/
theorem mem_evens {α : Type _} {x : α} :
    ∀ {l : List α}, x ∈ evens l → x ∈ l
  | [], h => by rw [evens] at h; exact absurd h (List.not_mem_nil x)
  | [_], h => by rw [evens] at h; exact h
  | _ :: _ :: rest, h => by
    rw [evens] at h
    rcases List.mem_cons.mp h with h1 | h1
    · exact List.mem_cons.mpr (Or.inl h1)
    · exact List.mem_cons.mpr (Or.inr (List.mem_cons.mpr (Or.inr (mem_evens h1))))

/-- The group-stripping step never outputs a parenthesis character. -/
theorem flatten_evens_no_paren (s : List Char) :
    '(' ∉ (evens (splitParens s)).flatten ∧ ')' ∉ (evens (splitParens s)).flatten := by
  constructor <;>
  · intro hmem
    rcases List.mem_flatten.mp hmem with ⟨seg, hseg, hc⟩
    have h := splitParens_no_paren s seg (mem_evens hseg)
    first
      | exact h.1 hc
      | exact h.2 hc

/-- Normalization never outputs a parenthesis character. -/
theorem tidy_no_paren (r : List Char) : '(' ∉ tidy r ∧ ')' ∉ tidy r := by
  rw [tidy]
  exact flatten_evens_no_paren _

/-- Claim C8: normalization strips the configured namespace prefixes and
    parenthesized argument lists (`arrow::engine::Foo(int)` becomes `Foo`)
    and collapses the `CheckNotYetImplementedTestCase` family
    (`CheckNotYetImplementedTestCase<Bar,Baz>(x)` becomes
    `CheckNotYetImplementedTestCase`). -/
theorem C8_normalize_examples :
    tidy "arrow::engine::Foo(int)".toList = "Foo".toList ∧
    tidy "CheckNotYetImplementedTestCase<Bar,Baz>(x)".toList =
      "CheckNotYetImplementedTestCase".toList := by decide

/-- Claim C5 fails as stated: `tidy` is not idempotent.  On the raw name
    `aarrow::rrow::` one application yields `arrow::` (removing the single
    occurrence of `arrow::` splices a new occurrence together, which
    Python's non-rescanning `replace` does not remove), and a second
    application yields the empty string. -/
theorem C5_counterexample :
    tidy (tidy "aarrow::rrow::".toList) ≠ tidy "aarrow::rrow::".toList ∧
    tidy "aarrow::rrow::".toList = "arrow::".toList ∧
    tidy (tidy "aarrow::rrow::".toList) = [] := by decide

/-- On a parenthesis-free string `splitParens` yields the single segment
    equal to the whole string. -/
theorem splitParens_of_no_paren :
    ∀ (s : List Char), '(' ∉ s → ')' ∉ s → splitParens s = [s] := by
  intro s
  induction s with
  | nil => intro _ _; rfl
  | cons c rest ih =>
    intro h1 h2
    rw [splitParens, if_neg, ih (fun h => h1 (List.mem_cons.mpr (Or.inr h)))
      (fun h => h2 (List.mem_cons.mpr (Or.inr h)))]
    intro hc
    rcases hc with hc | hc
    · exact h1 (hc ▸ List.mem_cons_self c rest)
    · exact h2 (hc ▸ List.mem_cons_self c rest)

/-- Claim C5 amended: normalization is idempotent on every raw name `r`
    whose normal form contains no occurrence of a stripped namespace prefix
    (`arrow::`, `engine::`, `std::`; the anonymous-namespace marker is
    impossible, the output being parenthesis-free) and does not begin with
    the family prefix `CheckNotYetImplementedTestCase` unless it equals it
    exactly. -/
theorem C5_amended (r : List Char)
    (h1 : hasOccur "arrow::".toList (tidy r) = false)
    (h2 : hasOccur "engine::".toList (tidy r) = false)
    (h3 : hasOccur "std::".toList (tidy r) = false)
    (h4 : "CheckNotYetImplementedTestCase".toList.isPrefixOf (tidy r) = false ∨
      tidy r = "CheckNotYetImplementedTestCase".toList) :
    tidy (tidy r) = tidy r := by
  rcases h4 with h4 | h4
  · have hp := tidy_no_paren r
    have h0 : hasOccur "(anonymous namespace)::".toList (tidy r) = false :=
      not_occur_of_not_mem (by decide) hp.1
    generalize hgen : tidy r = t at h1 h2 h3 h4 hp h0 ⊢
    simp only [tidy]
    rw [replaceAll_of_not_occur h1, replaceAll_of_not_occur h2,
      replaceAll_of_not_occur h3, replaceAll_of_not_occur h0, h4]
    rw [if_neg (by simp), splitParens_of_no_paren _ hp.1 hp.2]
    simp [evens]
  · rw [h4]
    decide

/-- Witness for the amended claim C5 at the raw name `xyz`. -/
theorem C5_amended_witness :
    tidy (tidy "xyz".toList) = tidy "xyz".toList :=
  C5_amended "xyz".toList (by decide) (by decide) (by decide)
    (Or.inl (by decide))

/-- Claim C7 fails as stated: on a raw name with an unbalanced parenthesis
    normalization does not throw, but it is wrong that nothing is stripped —
    the text after the unmatched `(` of `Foo(int` is dropped, yielding
    `Foo`. -/
theorem C7_counterexample :
    tidy "Foo(int".toList ≠ "Foo(int".toList ∧
    tidy "Foo(int".toList = "Foo".toList := by decide

/-- Claim C7 amended: normalization never raises (it is a total function);
    a raw name with no parentheses at all passes the group-stripping step
    unchanged, while an unbalanced parenthesis still acts as a split point,
    dropping the odd-indexed segments after it. -/
theorem C7_amended (s : List Char) (h1 : '(' ∉ s) (h2 : ')' ∉ s) :
    splitParens s = [s] ∧ (evens (splitParens s)).flatten = s := by
  have h := splitParens_of_no_paren s h1 h2
  refine ⟨h, ?_⟩
  rw [h]
  simp [evens]

/-- Witness for the amended claim C7 at the raw name `abc`. -/
theorem C7_amended_witness :
    splitParens "abc".toList = ["abc".toList] ∧
    (evens (splitParens "abc".toList)).flatten = "abc".toList :=
  C7_amended "abc".toList (by decide) (by decide)

/-- Folding `insert` over a list (the way Python's `set.add` accumulates
    the edge set) is union with the list's element set. -/
theorem foldl_insert_eq_union {α : Type _} [DecidableEq α] :
    ∀ (es : List α) (E : Finset α),
      es.foldl (fun E p => insert p E) E = E ∪ es.toFinset := by
  intro es
  induction es with
  | nil => intro E; simp
  | cons p rest ih =>
    intro E
    rw [List.foldl_cons, ih, List.toFinset_cons, Finset.union_insert,
      Finset.insert_union]

namespace ViewCallGraph

theorem mem_setAdd {s : List FrameName} {m n : FrameName} :
    n ∈ setAdd s m ↔ n ∈ s ∨ n = m := by
  rw [setAdd]
  by_cases h : m ∈ s
  · rw [if_pos h]
    constructor
    · exact Or.inl
    · rintro (h1 | h1)
      · exact h1
      · exact h1 ▸ h
  · rw [if_neg h]
    simp

theorem nodup_setAdd {s : List FrameName} (h : s.Nodup) (m : FrameName) :
    (setAdd s m).Nodup := by
  rw [setAdd]
  by_cases hm : m ∈ s
  · rwa [if_pos hm]
  · rw [if_neg hm]
    refine List.nodup_append.mpr ⟨h, List.nodup_singleton m, ?_⟩
    intro a ha hb
    rw [List.mem_singleton] at hb
    exact hm (hb ▸ ha)

theorem mem_foldl_setAdd :
    ∀ (stack : List FrameName) (s : List FrameName) (n : FrameName),
      n ∈ stack.foldl setAdd s ↔ n ∈ s ∨ n ∈ stack := by
  intro stack
  induction stack with
  | nil => intro s n; simp
  | cons m rest ih =>
    intro s n
    rw [List.foldl_cons, ih, mem_setAdd, List.mem_cons]
    tauto

theorem nodup_foldl_setAdd :
    ∀ (stack : List FrameName) (s : List FrameName), s.Nodup →
      (stack.foldl setAdd s).Nodup := by
  intro stack
  induction stack with
  | nil => intro s h; exact h
  | cons m rest ih => intro s h; exact ih (setAdd s m) (nodup_setAdd h m)

theorem foldl_setAdd_of_subset :
    ∀ (stack : List FrameName) (s : List FrameName),
      (∀ n ∈ stack, n ∈ s) → stack.foldl setAdd s = s := by
  intro stack
  induction stack with
  | nil => intro s _; rfl
  | cons m rest ih =>
    intro s h
    rw [List.foldl_cons, setAdd, if_pos (h m (List.mem_cons_self m rest))]
    exact ih s (fun n hn => h n (List.mem_cons.mpr (Or.inr hn)))

theorem foldl_stop_stacks :
    ∀ (raws : List (List (List Char))) (bp : StackTraceBreakpoint),
      (raws.foldl stop bp).stacks' = bp.stacks' ++ raws.map (List.map tidy) := by
  intro raws
  induction raws with
  | nil => intro bp; simp
  | cons t rest ih =>
    intro bp
    rw [List.foldl_cons, ih, List.map_cons]
    show (stop bp t).stacks' ++ _ = _
    rw [stop]
    simp

theorem mem_foldl_stop_names :
    ∀ (raws : List (List (List Char))) (bp : StackTraceBreakpoint) (n : FrameName),
      n ∈ (raws.foldl stop bp).function_names ↔
        n ∈ bp.function_names ∨ ∃ t ∈ raws, n ∈ t.map tidy := by
  intro raws
  induction raws with
  | nil => intro bp n; simp
  | cons t rest ih =>
    intro bp n
    rw [List.foldl_cons, ih]
    show n ∈ (t.map tidy).foldl setAdd bp.function_names ∨ _ ↔ _
    rw [mem_foldl_setAdd]
    simp only [List.mem_cons]
    constructor
    · rintro ((h | h) | ⟨u, hu, hn⟩)
      · exact Or.inl h
      · exact Or.inr ⟨t, Or.inl rfl, h⟩
      · exact Or.inr ⟨u, Or.inr hu, hn⟩
    · rintro (h | ⟨u, (hu | hu), hn⟩)
      · exact Or.inl (Or.inl h)
      · exact Or.inl (Or.inr (hu ▸ hn))
      · exact Or.inr ⟨u, hu, hn⟩

theorem nodup_foldl_stop :
    ∀ (raws : List (List (List Char))) (bp : StackTraceBreakpoint),
      bp.function_names.Nodup → (raws.foldl stop bp).function_names.Nodup := by
  intro raws
  induction raws with
  | nil => intro bp h; exact h
  | cons t rest ih =>
    intro bp h
    exact ih (stop bp t) (nodup_foldl_setAdd (t.map tidy) bp.function_names h)

theorem runSession_stacks (raws : List (List (List Char))) :
    (runSession raws).stacks' = raws.map (List.map tidy) := by
  rw [runSession, foldl_stop_stacks]
  rfl

theorem mem_runSession_names (raws : List (List (List Char))) (n : FrameName) :
    n ∈ (runSession raws).function_names ↔ ∃ t ∈ raws, n ∈ t.map tidy := by
  rw [runSession, mem_foldl_stop_names]
  simp [initialState]

theorem nodup_runSession (raws : List (List (List Char))) :
    (runSession raws).function_names.Nodup :=
  nodup_foldl_stop raws initialState List.nodup_nil

/-- Every name stored in any captured stack is a member of the accumulated
    function-name set. -/
theorem stacks_subset_names (raws : List (List (List Char))) :
    ∀ s ∈ (runSession raws).stacks', ∀ n ∈ s,
      n ∈ (runSession raws).function_names := by
  intro s hs n hn
  rw [runSession_stacks] at hs
  rcases List.mem_map.mp hs with ⟨t, ht, rfl⟩
  exact (mem_runSession_names raws n).mpr ⟨t, ht, hn⟩

/-- The first index of `n` in `L` as a total function (meaningful when
    `n ∈ L`); the value `idxOf` wraps in `some` on success. -/
def listIndex (L : List FrameName) (n : FrameName) : Nat :=
  match L with
  | [] => 0
  | m :: rest => if m = n then 0 else listIndex rest n + 1

theorem idxOf_eq_some :
    ∀ (L : List FrameName) (n : FrameName), n ∈ L →
      idxOf L n = some (listIndex L n) := by
  intro L
  induction L with
  | nil => intro n h; cases h
  | cons m rest ih =>
    intro n h
    rw [idxOf, listIndex]
    by_cases hm : m = n
    · rw [if_pos hm, if_pos hm]
    · rw [if_neg hm, if_neg hm]
      rcases List.mem_cons.mp h with h1 | h1
      · exact absurd h1.symm hm
      · rw [ih n h1]
        rfl

/-- Distinct members of `L` have distinct first indices. -/
theorem listIndex_inj :
    ∀ (L : List FrameName) (a b : FrameName), a ∈ L → b ∈ L →
      listIndex L a = listIndex L b → a = b := by
  intro L
  induction L with
  | nil => intro a b ha _ _; cases ha
  | cons m rest ih =>
    intro a b ha hb heq
    rw [listIndex, listIndex] at heq
    by_cases h1 : m = a
    · by_cases h2 : m = b
      · exact h1 ▸ h2
      · rw [if_pos h1, if_neg h2] at heq
        cases heq
    · by_cases h2 : m = b
      · rw [if_neg h1, if_pos h2] at heq
        cases heq
      · rw [if_neg h1, if_neg h2] at heq
        have ha2 : a ∈ rest := by
          rcases List.mem_cons.mp ha with h | h
          · exact absurd h.symm h1
          · exact h
        have hb2 : b ∈ rest := by
          rcases List.mem_cons.mp hb with h | h
          · exact absurd h.symm h2
          · exact h
        exact ih a b ha2 hb2 (Nat.succ_injective heq)

theorem idxOf_isSome {L : List FrameName} {n : FrameName} (h : n ∈ L) :
    (idxOf L n).isSome := by
  rw [idxOf_eq_some L n h]
  rfl

/-- With every frame name of the stack present in the node list, the inner
    edge loop succeeds and yields exactly the index images of the stack's
    adjacent (caller, callee) name pairs. -/
theorem stackEdges_eq_of_mem (L : List FrameName) :
    ∀ (s : List FrameName), (∀ n ∈ s, n ∈ L) →
      stackEdges L s =
        some ((adjPairs s).map (fun p => (listIndex L p.1, listIndex L p.2)))
  | [], _ => rfl
  | [_], _ => rfl
  | a :: b :: rest, h => by
    rw [stackEdges, adjPairs,
      idxOf_eq_some L b (h b (List.mem_cons.mpr (Or.inr (List.mem_cons_self b rest)))),
      idxOf_eq_some L a (h a (List.mem_cons_self a (b :: rest))),
      stackEdges_eq_of_mem L (b :: rest)
        (fun n hn => h n (List.mem_cons.mpr (Or.inr hn)))]
    rfl

/-- The element set of a mapped list is the image of the element set. -/
theorem list_toFinset_map {α β : Type _} [DecidableEq α] [DecidableEq β]
    (f : α → β) (l : List α) : (l.map f).toFinset = l.toFinset.image f := by
  induction l with
  | nil => simp
  | cons a rest ih => simp [ih]

/-- When the stack's pairs are all found, `addStack` unions them into the
    accumulated edge set. -/
theorem addStack_some {L : List FrameName} {stack : List FrameName}
    {es : List (Nat × Nat)} (h : stackEdges L stack = some es) :
    ∀ acc, addStack L acc stack = acc.map (fun E => E ∪ es.toFinset) := by
  intro acc
  cases acc with
  | none => rfl
  | some E => simp [addStack, h, foldl_insert_eq_union]

/-- A stack whose pairs cannot all be resolved poisons the edge set. -/
theorem addStack_none {L : List FrameName} {stack : List FrameName}
    (h : stackEdges L stack = none) :
    ∀ acc, addStack L acc stack = none := by
  intro acc
  cases acc with
  | none => rfl
  | some E => simp [addStack, h]

/-- Adding stacks in either order yields the same edge set. -/
theorem addStack_right_comm (L : List FrameName) (acc : Option (Finset (Nat × Nat)))
    (s1 s2 : List FrameName) :
    addStack L (addStack L acc s1) s2 = addStack L (addStack L acc s2) s1 := by
  cases h1 : stackEdges L s1 with
  | none =>
    rw [addStack_none h1, addStack_none h1]
    cases h2 : stackEdges L s2 with
    | none => rw [addStack_none h2]
    | some es2 => rw [addStack_some h2]; rfl
  | some es1 =>
    cases h2 : stackEdges L s2 with
    | none =>
      rw [addStack_none h2, addStack_none h2, addStack_some h1]
      rfl
    | some es2 =>
      rw [addStack_some h1, addStack_some h2, addStack_some h2, addStack_some h1,
        Option.map_map, Option.map_map]
      cases acc with
      | none => rfl
      | some E =>
        simp only [Option.map_some', Function.comp_apply]
        rw [Finset.union_right_comm]

/-- The whole edge-set computation, started from any already-accumulated
    set: it succeeds when every stack name is enumerated, and equals the
    index image of the accumulated name-pair set. -/
theorem foldl_addStack_eq_image (L : List FrameName) :
    ∀ (stks : List (List FrameName)) (B : Finset (FrameName × FrameName)),
      (∀ s ∈ stks, ∀ n ∈ s, n ∈ L) →
      stks.foldl (addStack L)
          (some (B.image (fun p => (listIndex L p.1, listIndex L p.2)))) =
        some ((stks.foldl (fun S stack => S ∪ (adjPairs stack).toFinset) B).image
          (fun p => (listIndex L p.1, listIndex L p.2))) := by
  intro stks
  induction stks with
  | nil => intro B _; rfl
  | cons stack rest ih =>
    intro B h
    rw [List.foldl_cons, List.foldl_cons,
      addStack_some (stackEdges_eq_of_mem L stack
        (fun n hn => h stack (List.mem_cons_self stack rest) n hn)),
      Option.map_some']
    rw [list_toFinset_map, ← Finset.image_union]
    exact ih (B ∪ (adjPairs stack).toFinset)
      (fun s hs n hn => h s (List.mem_cons.mpr (Or.inr hs)) n hn)

/-- The edge set as the index image of the distinct name-pair set. -/
theorem edges_eq_image (L : List FrameName) (stks : List (List FrameName))
    (h : ∀ s ∈ stks, ∀ n ∈ s, n ∈ L) :
    edges L stks =
      some ((namePairs stks).image (fun p => (listIndex L p.1, listIndex L p.2))) := by
  have h0 :
      (some (∅ : Finset (Nat × Nat))) =
        some ((∅ : Finset (FrameName × FrameName)).image
          (fun p => (listIndex L p.1, listIndex L p.2))) := by
    rw [Finset.image_empty]
  rw [edges, namePairs, h0]
  exact foldl_addStack_eq_image L stks ∅ h

/-- Every component of an adjacent name pair is a frame of the stack. -/
theorem mem_of_mem_adjPairs :
    ∀ (stack : List FrameName) (p : FrameName × FrameName), p ∈ adjPairs stack →
      p.1 ∈ stack ∧ p.2 ∈ stack
  | a :: b :: rest, p, hp => by
    rw [adjPairs] at hp
    rcases List.mem_cons.mp hp with h | h
    · subst h
      exact ⟨List.mem_cons.mpr (Or.inr (List.mem_cons_self b rest)),
        List.mem_cons_self a (b :: rest)⟩
    · have := mem_of_mem_adjPairs (b :: rest) p h
      exact ⟨List.mem_cons.mpr (Or.inr this.1), List.mem_cons.mpr (Or.inr this.2)⟩

/-- Every component of a pair in the accumulated name-pair set occurs in
    one of the stacks. -/
theorem mem_namePairs :
    ∀ (stks : List (List FrameName)) (B : Finset (FrameName × FrameName))
      (p : FrameName × FrameName),
      p ∈ stks.foldl (fun S stack => S ∪ (adjPairs stack).toFinset) B →
      p ∈ B ∨ ∃ s ∈ stks, p ∈ adjPairs s := by
  intro stks
  induction stks with
  | nil => intro B p hp; exact Or.inl hp
  | cons stack rest ih =>
    intro B p hp
    rw [List.foldl_cons] at hp
    rcases ih (B ∪ (adjPairs stack).toFinset) p hp with h | ⟨s, hs, hps⟩
    · rcases Finset.mem_union.mp h with h | h
      · exact Or.inl h
      · exact Or.inr ⟨stack, List.mem_cons_self stack rest, List.mem_toFinset.mp h⟩
    · exact Or.inr ⟨s, List.mem_cons.mpr (Or.inr hs), hps⟩

end ViewCallGraph

namespace ViewCallGraph

/-- A `none` accumulator stays `none`. -/
theorem addStack_acc_none (L : List FrameName) (stack : List FrameName) :
    addStack L none stack = none := rfl

/-- A stack contributing no pairs leaves the accumulated edge set alone. -/
theorem addStack_of_nil {L : List FrameName} {stack : List FrameName}
    (h : stackEdges L stack = some []) (acc : Option (Finset (Nat × Nat))) :
    addStack L acc stack = acc := by
  rw [addStack_some h]
  cases acc with
  | none => rfl
  | some E => simp

/-- Membership transfer along a set enumeration. -/
theorem validEnum_mem {s L : List FrameName} (h : validEnum s L)
    (n : FrameName) : n ∈ L ↔ n ∈ s :=
  List.Perm.mem_iff h

/-- Unfolding `namePairs` over one more stack. -/
theorem namePairs_append (l : List (List FrameName)) (st : List FrameName) :
    namePairs (l ++ [st]) = namePairs l ∪ (adjPairs st).toFinset := by
  rw [namePairs, namePairs, List.foldl_append]
  rfl

end ViewCallGraph

/-- Claim C4: aggregation is commutative over trace order — for every
    permutation of the captured traces the session yields identical node
    sets (same membership of the function-name set) and, for every node
    enumeration `L`, identical edge sets. -/
theorem C4_order_independence (raws1 raws2 : List (List (List Char)))
    (hperm : raws1.Perm raws2) (L : List FrameName) :
    (∀ n, n ∈ (ViewCallGraph.runSession raws1).function_names ↔
      n ∈ (ViewCallGraph.runSession raws2).function_names) ∧
    ViewCallGraph.edges L (ViewCallGraph.runSession raws1).stacks' =
      ViewCallGraph.edges L (ViewCallGraph.runSession raws2).stacks' := by
  constructor
  · intro n
    rw [ViewCallGraph.mem_runSession_names, ViewCallGraph.mem_runSession_names]
    constructor
    · rintro ⟨t, ht, hn⟩
      exact ⟨t, hperm.mem_iff.mp ht, hn⟩
    · rintro ⟨t, ht, hn⟩
      exact ⟨t, hperm.mem_iff.mpr ht, hn⟩
  · rw [ViewCallGraph.runSession_stacks, ViewCallGraph.runSession_stacks,
      ViewCallGraph.edges, ViewCallGraph.edges]
    exact (hperm.map (List.map tidy)).foldl_eq'
      (fun x _ y _ z => ViewCallGraph.addStack_right_comm L z x y) (some ∅)

/-- Witness for claim C4: swapping two concrete captures. -/
theorem C4_order_independence_witness :
    (∀ n, n ∈ (ViewCallGraph.runSession
        [["f".toList], ["g".toList]]).function_names ↔
      n ∈ (ViewCallGraph.runSession
        [["g".toList], ["f".toList]]).function_names) ∧
    ViewCallGraph.edges ["f".toList, "g".toList]
        (ViewCallGraph.runSession [["f".toList], ["g".toList]]).stacks' =
      ViewCallGraph.edges ["f".toList, "g".toList]
        (ViewCallGraph.runSession [["g".toList], ["f".toList]]).stacks' :=
  C4_order_independence [["f".toList], ["g".toList]] [["g".toList], ["f".toList]]
    (List.Perm.swap ["g".toList] ["f".toList] []) ["f".toList, "g".toList]

/-- Claim C10: every node-identifier lookup performed while building the
    edge set succeeds — each frame name stored in any captured stack is a
    member of the accumulated function-name set (capture adds each
    normalized name to the set as it appends it to the stack), so for any
    enumeration of the set the edge computation never hits the lookup
    failure branch. -/
theorem C10_lookups_succeed (raws : List (List (List Char))) (L : List FrameName)
    (hL : ViewCallGraph.validEnum
      (ViewCallGraph.runSession raws).function_names L) :
    (∀ s ∈ (ViewCallGraph.runSession raws).stacks', ∀ n ∈ s,
      n ∈ (ViewCallGraph.runSession raws).function_names) ∧
    (ViewCallGraph.edges L (ViewCallGraph.runSession raws).stacks').isSome := by
  refine ⟨ViewCallGraph.stacks_subset_names raws, ?_⟩
  rw [ViewCallGraph.edges_eq_image L _ (fun s hs n hn =>
    (ViewCallGraph.validEnum_mem hL n).mpr
      (ViewCallGraph.stacks_subset_names raws s hs n hn))]
  rfl

/-- Witness for claim C10 at a concrete two-frame session. -/
theorem C10_lookups_succeed_witness :
    (∀ s ∈ (ViewCallGraph.runSession [["f".toList, "g".toList]]).stacks',
      ∀ n ∈ s,
        n ∈ (ViewCallGraph.runSession [["f".toList, "g".toList]]).function_names) ∧
    (ViewCallGraph.edges ["g".toList, "f".toList]
      (ViewCallGraph.runSession [["f".toList, "g".toList]]).stacks').isSome :=
  C10_lookups_succeed [["f".toList, "g".toList]] ["g".toList, "f".toList]
    (List.Perm.swap "f".toList "g".toList [])

/-- Claim C9: a captured trace with fewer than 2 frames contributes zero
    edges and no error (the inner loop yields no pairs and the aggregate is
    unchanged), and a trace with exactly 1 frame contributes exactly one
    node, its single normalized frame name. -/
theorem C9_short_trace (bp : ViewCallGraph.StackTraceBreakpoint)
    (rawFrames : List (List Char)) (L : List FrameName)
    (h : rawFrames.length < 2) :
    ViewCallGraph.stackEdges L (rawFrames.map tidy) = some [] ∧
    ViewCallGraph.edges L (ViewCallGraph.stop bp rawFrames).stacks' =
      ViewCallGraph.edges L bp.stacks' ∧
    (∀ r, rawFrames = [r] →
      ∀ n, n ∈ (ViewCallGraph.stop bp rawFrames).function_names ↔
        (n ∈ bp.function_names ∨ n = tidy r)) := by
  have hshort : ViewCallGraph.stackEdges L (rawFrames.map tidy) = some [] := by
    match rawFrames, h with
    | [], _ => rfl
    | [r], _ => rfl
  refine ⟨hshort, ?_, ?_⟩
  · show ViewCallGraph.edges L (bp.stacks' ++ [rawFrames.map tidy]) = _
    rw [ViewCallGraph.edges, ViewCallGraph.edges, List.foldl_append,
      List.foldl_cons, List.foldl_nil, ViewCallGraph.addStack_of_nil hshort]
  · rintro r rfl n
    show n ∈ ViewCallGraph.setAdd bp.function_names (tidy r) ↔ _
    exact ViewCallGraph.mem_setAdd

/-- Witness for claim C9 at a concrete one-frame capture. -/
theorem C9_short_trace_witness :
    ViewCallGraph.stackEdges [] (["a".toList].map tidy) = some [] ∧
    ViewCallGraph.edges []
        (ViewCallGraph.stop ViewCallGraph.initialState ["a".toList]).stacks' =
      ViewCallGraph.edges [] ViewCallGraph.initialState.stacks' ∧
    (∀ r, ["a".toList] = [r] →
      ∀ n, n ∈ (ViewCallGraph.stop ViewCallGraph.initialState
          ["a".toList]).function_names ↔
        (n ∈ ViewCallGraph.initialState.function_names ∨ n = tidy r)) :=
  C9_short_trace ViewCallGraph.initialState ["a".toList] [] (by decide)

namespace ViewCallGraph

/-- Pairs of any listed stack belong to the accumulated name-pair set. -/
theorem mem_namePairs_of :
    ∀ (stks : List (List FrameName)) (B : Finset (FrameName × FrameName))
      (p : FrameName × FrameName),
      (p ∈ B ∨ ∃ s ∈ stks, p ∈ adjPairs s) →
      p ∈ stks.foldl (fun S stack => S ∪ (adjPairs stack).toFinset) B := by
  intro stks
  induction stks with
  | nil =>
    intro B p hp
    rcases hp with h | ⟨s, hs, _⟩
    · exact h
    · cases hs
  | cons stack rest ih =>
    intro B p hp
    rw [List.foldl_cons]
    apply ih
    rcases hp with h | ⟨s, hs, hps⟩
    · exact Or.inl (Finset.mem_union.mpr (Or.inl h))
    · rcases List.mem_cons.mp hs with h1 | h1
      · exact Or.inl (Finset.mem_union.mpr (Or.inr (List.mem_toFinset.mpr (h1 ▸ hps))))
      · exact Or.inr ⟨s, h1, hps⟩

/-- Appending a stack that already occurs among the captured stacks leaves
    the edge set unchanged. -/
theorem edges_append_of_mem (L : List FrameName) (S : List (List FrameName))
    (st : List FrameName) (hmem : st ∈ S)
    (hall : ∀ s ∈ S, ∀ n ∈ s, n ∈ L) :
    edges L (S ++ [st]) = edges L S := by
  have hall2 : ∀ s ∈ S ++ [st], ∀ n ∈ s, n ∈ L := by
    intro s hs
    rcases List.mem_append.mp hs with h | h
    · exact hall s h
    · rw [List.mem_singleton] at h
      intro n hn
      exact hall st hmem n (h ▸ hn)
  rw [edges_eq_image L _ hall, edges_eq_image L _ hall2, namePairs_append]
  have hsub : (adjPairs st).toFinset ⊆ namePairs S := by
    intro p hp
    exact mem_namePairs_of S ∅ p (Or.inr ⟨st, hmem, List.mem_toFinset.mp hp⟩)
  rw [Finset.union_eq_left.mpr hsub]

end ViewCallGraph

/-- Claim C1 fails as stated: when a trace is selected for highlighting the
    interactive renderer emits one edge per distinct (pair, color)
    combination, so an adjacency occurring both in the selected trace and
    in another trace is rendered twice (once red, once black) — here a
    session capturing the same 2-frame trace twice renders 2 edges while
    only 1 distinct adjacent-frame pair was observed. -/
theorem C1_counterexample :
    (ViewCallGraphInteractive.edgesC ["f".toList, "g".toList] (some 0)
        (ViewCallGraphInteractive.runSession
          [(["f".toList, "g".toList], []), (["f".toList, "g".toList], [])]
          ).stacks_and_locals).map Finset.card = some 2 ∧
    (ViewCallGraph.namePairs
      ((ViewCallGraphInteractive.runSession
          [(["f".toList, "g".toList], []), (["f".toList, "g".toList], [])]
          ).stacks_and_locals.map Prod.fst)).card = 1 := by decide

/-- Claim C1 amended: node and edge sets do have set semantics — capturing
    the same trace twice changes neither the function-name set nor the edge
    set, and in a rendering without a highlighted trace the number of edges
    equals the number of distinct (caller, callee) adjacent-frame name
    pairs observed; only a rendering with a selected trace can render one
    pair twice (red and black). -/
theorem C1_amended (raws : List (List (List Char))) (t : List (List Char))
    (L : List FrameName)
    (hL : ViewCallGraph.validEnum
      (ViewCallGraph.runSession (raws ++ [t])).function_names L) :
    (ViewCallGraph.runSession (raws ++ [t, t])).function_names =
      (ViewCallGraph.runSession (raws ++ [t])).function_names ∧
    ViewCallGraph.edges L (ViewCallGraph.runSession (raws ++ [t, t])).stacks' =
      ViewCallGraph.edges L (ViewCallGraph.runSession (raws ++ [t])).stacks' ∧
    (∀ E, ViewCallGraph.edges L
        (ViewCallGraph.runSession (raws ++ [t])).stacks' = some E →
      E.card =
        (ViewCallGraph.namePairs
          (ViewCallGraph.runSession (raws ++ [t])).stacks').card) := by
  have hsplit : raws ++ [t, t] = (raws ++ [t]) ++ [t] := by simp
  have hmemL : ∀ s ∈ (ViewCallGraph.runSession (raws ++ [t])).stacks',
      ∀ n ∈ s, n ∈ L := fun s hs n hn =>
    (ViewCallGraph.validEnum_mem hL n).mpr
      (ViewCallGraph.stacks_subset_names _ s hs n hn)
  have hnames : (ViewCallGraph.runSession (raws ++ [t, t])).function_names =
      (ViewCallGraph.runSession (raws ++ [t])).function_names := by
    rw [hsplit, ViewCallGraph.runSession, List.foldl_append, List.foldl_cons,
      List.foldl_nil]
    apply ViewCallGraph.foldl_setAdd_of_subset
    intro n hn
    exact (ViewCallGraph.mem_runSession_names (raws ++ [t]) n).mpr
      ⟨t, List.mem_append.mpr (Or.inr (List.mem_singleton.mpr rfl)), hn⟩
  refine ⟨hnames, ?_, ?_⟩
  · rw [ViewCallGraph.runSession_stacks, ViewCallGraph.runSession_stacks, hsplit,
      List.map_append, List.map_cons, List.map_nil]
    rw [show (ViewCallGraph.runSession (raws ++ [t])).stacks' =
      (raws ++ [t]).map (List.map tidy) from ViewCallGraph.runSession_stacks _] at hmemL
    exact ViewCallGraph.edges_append_of_mem L ((raws ++ [t]).map (List.map tidy))
      (List.map tidy t)
      (List.mem_map.mpr ⟨t,
        List.mem_append.mpr (Or.inr (List.mem_singleton.mpr rfl)), rfl⟩)
      hmemL
  · intro E hE
    rw [ViewCallGraph.edges_eq_image L _ hmemL] at hE
    have hEeq := Option.some.inj hE
    rw [← hEeq]
    apply Finset.card_image_of_injOn
    intro p hp q hq heq
    have hpcomp : p.1 ∈ L ∧ p.2 ∈ L := by
      rcases ViewCallGraph.mem_namePairs _ ∅ p (Finset.mem_coe.mp hp) with h | ⟨s, hs, hps⟩
      · cases h
      · have hc := ViewCallGraph.mem_of_mem_adjPairs s p hps
        exact ⟨(ViewCallGraph.validEnum_mem hL p.1).mpr
            (ViewCallGraph.stacks_subset_names _ s hs p.1 hc.1),
          (ViewCallGraph.validEnum_mem hL p.2).mpr
            (ViewCallGraph.stacks_subset_names _ s hs p.2 hc.2)⟩
    have hqcomp : q.1 ∈ L ∧ q.2 ∈ L := by
      rcases ViewCallGraph.mem_namePairs _ ∅ q (Finset.mem_coe.mp hq) with h | ⟨s, hs, hqs⟩
      · cases h
      · have hc := ViewCallGraph.mem_of_mem_adjPairs s q hqs
        exact ⟨(ViewCallGraph.validEnum_mem hL q.1).mpr
            (ViewCallGraph.stacks_subset_names _ s hs q.1 hc.1),
          (ViewCallGraph.validEnum_mem hL q.2).mpr
            (ViewCallGraph.stacks_subset_names _ s hs q.2 hc.2)⟩
    have h1 := congrArg Prod.fst heq
    have h2 := congrArg Prod.snd heq
    simp only at h1 h2
    exact Prod.ext
      (ViewCallGraph.listIndex_inj L p.1 q.1 hpcomp.1 hqcomp.1 h1)
      (ViewCallGraph.listIndex_inj L p.2 q.2 hpcomp.2 hqcomp.2 h2)

/-- Witness for the amended claim C1: an empty prior session plus a
    two-frame trace captured twice. -/
theorem C1_amended_witness :
    (ViewCallGraph.runSession
        ([] ++ [["f".toList, "g".toList], ["f".toList, "g".toList]])).function_names =
      (ViewCallGraph.runSession ([] ++ [["f".toList, "g".toList]])).function_names ∧
    ViewCallGraph.edges ["g".toList, "f".toList]
        (ViewCallGraph.runSession
          ([] ++ [["f".toList, "g".toList], ["f".toList, "g".toList]])).stacks' =
      ViewCallGraph.edges ["g".toList, "f".toList]
        (ViewCallGraph.runSession ([] ++ [["f".toList, "g".toList]])).stacks' ∧
    (∀ E, ViewCallGraph.edges ["g".toList, "f".toList]
        (ViewCallGraph.runSession ([] ++ [["f".toList, "g".toList]])).stacks' = some E →
      E.card =
        (ViewCallGraph.namePairs
          (ViewCallGraph.runSession ([] ++ [["f".toList, "g".toList]])).stacks').card) := by
  have h : ViewCallGraph.validEnum
      (ViewCallGraph.runSession
        ([] ++ [["f".toList, "g".toList]])).function_names
      ["g".toList, "f".toList] := by
    show List.Perm _ _
    have heq : (ViewCallGraph.runSession
        ([] ++ [["f".toList, "g".toList]])).function_names =
        ["f".toList, "g".toList] := by decide
    rw [heq]
    exact List.Perm.swap "f".toList "g".toList []
  exact C1_amended [] ["f".toList, "g".toList] ["g".toList, "f".toList] h

/-- Claim C2 fails as stated: node identifiers come from enumerating a
    Python `set`, whose iteration order is unspecified — for a concrete
    session that saw `a` before `b`, the reversed enumeration is an equally
    valid value of `list(self.function_names)` but does not list the names
    in first-seen order, so identifiers are neither first-seen-ordered nor
    stable across renders. -/
theorem C2_counterexample :
    ViewCallGraph.validEnum
      (ViewCallGraph.runSession [["a".toList, "b".toList]]).function_names
      ["b".toList, "a".toList] ∧
    ["b".toList, "a".toList] ≠
      (ViewCallGraph.runSession [["a".toList, "b".toList]]).function_names :=
  ⟨List.Perm.swap "a".toList "b".toList [], by decide⟩

/-- Claim C2 amended: whatever order the set enumeration produces, within
    one render the identifier assignment is a bijection with the current
    name set — the enumeration is duplicate-free, positions map injectively
    to names, and every accumulated name appears at exactly one position.
    First-seen ordering and stability across renders are not guaranteed. -/
theorem C2_amended (raws : List (List (List Char))) (L : List FrameName)
    (hL : ViewCallGraph.validEnum
      (ViewCallGraph.runSession raws).function_names L) :
    L.Nodup ∧
    (∀ i j : Fin L.length, L.get i = L.get j → i = j) ∧
    (∀ n, n ∈ (ViewCallGraph.runSession raws).function_names ↔
      ∃ i : Fin L.length, L.get i = n) := by
  have hnodup : L.Nodup :=
    (List.Perm.nodup_iff hL).mpr (ViewCallGraph.nodup_runSession raws)
  refine ⟨hnodup, ?_, ?_⟩
  · intro i j hij
    exact List.nodup_iff_injective_get.mp hnodup hij
  · intro n
    rw [← ViewCallGraph.validEnum_mem hL n]
    exact List.mem_iff_get

/-- Witness for the amended claim C2 at a concrete two-name session with
    the reversed enumeration. -/
theorem C2_amended_witness :
    ["b".toList, "a".toList].Nodup ∧
    (∀ i j : Fin (["b".toList, "a".toList] : List FrameName).length,
      (["b".toList, "a".toList] : List FrameName).get i =
        (["b".toList, "a".toList] : List FrameName).get j → i = j) ∧
    (∀ n, n ∈ (ViewCallGraph.runSession
        [["a".toList, "b".toList]]).function_names ↔
      ∃ i : Fin (["b".toList, "a".toList] : List FrameName).length,
        (["b".toList, "a".toList] : List FrameName).get i = n) :=
  C2_amended [["a".toList, "b".toList]] ["b".toList, "a".toList]
    (List.Perm.swap "a".toList "b".toList [])

namespace ViewCallGraphInteractive

theorem foldl_stop_stacks_locals :
    ∀ (raws : List (List (List Char) × Locals)) (bp : StackTraceBreakpoint),
      (raws.foldl (fun bp r => stop bp r.1 r.2) bp).stacks_and_locals =
        bp.stacks_and_locals ++ raws.map (fun r => (r.1.map tidy, r.2)) := by
  intro raws
  induction raws with
  | nil => intro bp; simp
  | cons t rest ih =>
    intro bp
    rw [List.foldl_cons, ih, List.map_cons]
    show (stop bp t.1 t.2).stacks_and_locals ++ _ = _
    rw [stop]
    simp

theorem mem_foldl_stop_names_locals :
    ∀ (raws : List (List (List Char) × Locals)) (bp : StackTraceBreakpoint)
      (n : FrameName),
      n ∈ (raws.foldl (fun bp r => stop bp r.1 r.2) bp).function_names ↔
        n ∈ bp.function_names ∨ ∃ t ∈ raws, n ∈ t.1.map tidy := by
  intro raws
  induction raws with
  | nil => intro bp n; simp
  | cons t rest ih =>
    intro bp n
    rw [List.foldl_cons, ih]
    show n ∈ (t.1.map tidy).foldl ViewCallGraph.setAdd bp.function_names ∨ _ ↔ _
    rw [ViewCallGraph.mem_foldl_setAdd]
    simp only [List.mem_cons]
    constructor
    · rintro ((h | h) | ⟨u, hu, hn⟩)
      · exact Or.inl h
      · exact Or.inr ⟨t, Or.inl rfl, h⟩
      · exact Or.inr ⟨u, Or.inr hu, hn⟩
    · rintro (h | ⟨u, (hu | hu), hn⟩)
      · exact Or.inl (Or.inl h)
      · exact Or.inl (Or.inr (hu ▸ hn))
      · exact Or.inr ⟨u, hu, hn⟩

theorem runSession_stacks_locals (raws : List (List (List Char) × Locals)) :
    (runSession raws).stacks_and_locals = raws.map (fun r => (r.1.map tidy, r.2)) := by
  rw [runSession, foldl_stop_stacks_locals]
  rfl

theorem mem_runSession_names_locals (raws : List (List (List Char) × Locals))
    (n : FrameName) :
    n ∈ (runSession raws).function_names ↔ ∃ t ∈ raws, n ∈ t.1.map tidy := by
  rw [runSession, mem_foldl_stop_names_locals]
  simp [initialState]

/-- Every name stored in any captured stack is a member of the accumulated
    function-name set (interactive variant). -/
theorem stacks_subset_names_locals (raws : List (List (List Char) × Locals)) :
    ∀ p ∈ (runSession raws).stacks_and_locals, ∀ n ∈ p.1,
      n ∈ (runSession raws).function_names := by
  intro p hp n hn
  rw [runSession_stacks_locals] at hp
  rcases List.mem_map.mp hp with ⟨t, ht, rfl⟩
  exact (mem_runSession_names_locals raws n).mpr ⟨t, ht, hn⟩

/-- With every frame name of the stack enumerated, the colored inner loop
    succeeds and yields the stack's index pairs tagged with the color. -/
theorem stackEdgesC_eq_of_mem (L : List FrameName) (c : List Char) :
    ∀ (s : List FrameName), (∀ n ∈ s, n ∈ L) →
      stackEdgesC L c s =
        some ((ViewCallGraph.adjPairs s).map
          (fun p => (ViewCallGraph.listIndex L p.1, ViewCallGraph.listIndex L p.2, c)))
  | [], _ => rfl
  | [_], _ => rfl
  | a :: b :: rest, h => by
    rw [stackEdgesC, ViewCallGraph.adjPairs,
      ViewCallGraph.idxOf_eq_some L b
        (h b (List.mem_cons.mpr (Or.inr (List.mem_cons_self b rest)))),
      ViewCallGraph.idxOf_eq_some L a (h a (List.mem_cons_self a (b :: rest))),
      stackEdgesC_eq_of_mem L c (b :: rest)
        (fun n hn => h n (List.mem_cons.mpr (Or.inr hn)))]
    rfl

/-- An out-of-range selected index never matches a stack index, so the
    rendering is the same as with no selection at all. -/
theorem edgesCAux_out_of_range (L : List FrameName) (j : Nat) :
    ∀ (stks : List (List FrameName × Locals)) (i : Nat)
      (acc : Option (Finset (Nat × Nat × List Char))),
      (∀ k, k < stks.length → i + k ≠ j) →
      edgesCAux L (some j) i acc stks = edgesCAux L none i acc stks := by
  intro stks
  induction stks with
  | nil => intro i acc _; rfl
  | cons p rest ih =>
    intro i acc h
    obtain ⟨stack, loc⟩ := p
    rw [edgesCAux, edgesCAux]
    have hi : ¬ (some i = some j ∧ i ≤ 256) := by
      intro hcontra
      exact h 0 (Nat.succ_pos rest.length) (by
        rw [Nat.add_zero]
        exact Option.some.inj hcontra.1)
    rw [if_neg hi, if_neg (fun hc => Option.some_ne_none i hc.1)]
    exact ih (i + 1) _ (fun k hk => by
      have := h (k + 1) (Nat.succ_lt_succ hk)
      omega)
end ViewCallGraphInteractive

/-- Claim C3 fails as stated: requesting highlight index 99 on a session
    with only 3 captured traces does not fail with any error — the
    rendering succeeds, with every edge black, exactly as if no trace were
    selected. -/
theorem C3_counterexample :
    ViewCallGraphInteractive.edgesC ["f".toList, "g".toList] (some 99)
      (ViewCallGraphInteractive.runSession
        [(["f".toList, "g".toList], []), (["f".toList, "g".toList], []),
         (["f".toList, "g".toList], [])]).stacks_and_locals =
      some {(1, 0, ViewCallGraphInteractive.black)} ∧
    (ViewCallGraphInteractive.edgesC ["f".toList, "g".toList] (some 99)
      (ViewCallGraphInteractive.runSession
        [(["f".toList, "g".toList], []), (["f".toList, "g".toList], []),
         (["f".toList, "g".toList], [])]).stacks_and_locals).isSome := by
  constructor
  · decide
  · decide

/-- Claim C3 amended: a highlight index that does not correspond to any
    captured trace is silently accepted — no error is raised and the
    computed edge set is the one of an unhighlighted rendering (every edge
    black). -/
theorem C3_amended (raws : List (List (List Char) × ViewCallGraphInteractive.Locals))
    (L : List FrameName) (j : Nat)
    (h : (ViewCallGraphInteractive.runSession raws).stacks_and_locals.length ≤ j) :
    ViewCallGraphInteractive.edgesC L (some j)
        (ViewCallGraphInteractive.runSession raws).stacks_and_locals =
      ViewCallGraphInteractive.edgesC L none
        (ViewCallGraphInteractive.runSession raws).stacks_and_locals := by
  rw [ViewCallGraphInteractive.edgesC, ViewCallGraphInteractive.edgesC]
  exact ViewCallGraphInteractive.edgesCAux_out_of_range L j _ 0 (some ∅)
    (fun k hk => by omega)

/-- Witness for the amended claim C3: highlight index 99 on a concrete
    three-trace session. -/
theorem C3_amended_witness :
    ViewCallGraphInteractive.edgesC ["f".toList, "g".toList] (some 99)
        (ViewCallGraphInteractive.runSession
          [(["f".toList, "g".toList], []), (["f".toList, "g".toList], []),
           (["f".toList, "g".toList], [])]).stacks_and_locals =
      ViewCallGraphInteractive.edgesC ["f".toList, "g".toList] none
        (ViewCallGraphInteractive.runSession
          [(["f".toList, "g".toList], []), (["f".toList, "g".toList], []),
           (["f".toList, "g".toList], [])]).stacks_and_locals :=
  C3_amended
    [(["f".toList, "g".toList], []), (["f".toList, "g".toList], []),
     (["f".toList, "g".toList], [])]
    ["f".toList, "g".toList] 99 (by decide)

namespace ViewCallGraphInteractive

theorem reds_empty : reds ∅ = ∅ := by
  simp [reds]

theorem reds_insert (e : Nat × Nat × List Char) (E : Finset (Nat × Nat × List Char)) :
    reds (insert e E) =
      if e.2.2 = red then insert (e.1, e.2.1) (reds E) else reds E := by
  rw [reds, Finset.filter_insert]
  by_cases h : e.2.2 = red
  · rw [if_pos h, if_pos h, Finset.image_insert]
    rfl
  · rw [if_neg h, if_neg h]
    rfl

/-- Accumulating one stack's red-tagged pairs adds exactly those pairs to
    the highlighted subset. -/
theorem reds_foldl_red (L : List FrameName) (pairs : List (FrameName × FrameName)) :
    ∀ (E : Finset (Nat × Nat × List Char)),
      reds ((pairs.map (fun p =>
          (ViewCallGraph.listIndex L p.1, ViewCallGraph.listIndex L p.2, red))).foldl
        (fun E e => insert e E) E) =
      reds E ∪ (pairs.map (fun p =>
        (ViewCallGraph.listIndex L p.1, ViewCallGraph.listIndex L p.2))).toFinset := by
  induction pairs with
  | nil => intro E; simp
  | cons p rest ih =>
    intro E
    rw [List.map_cons, List.foldl_cons, ih, reds_insert, if_pos rfl,
      List.map_cons, List.toFinset_cons, Finset.insert_union, Finset.union_insert]

/-- Accumulating one stack's black-tagged pairs leaves the highlighted
    subset alone. -/
theorem reds_foldl_black (L : List FrameName) (pairs : List (FrameName × FrameName)) :
    ∀ (E : Finset (Nat × Nat × List Char)),
      reds ((pairs.map (fun p =>
          (ViewCallGraph.listIndex L p.1, ViewCallGraph.listIndex L p.2, black))).foldl
        (fun E e => insert e E) E) = reds E := by
  induction pairs with
  | nil => intro E; rfl
  | cons p rest ih =>
    intro E
    have hbr : black ≠ red := by decide
    rw [List.map_cons, List.foldl_cons, ih, reds_insert,
      if_neg (fun hc => hbr hc)]

/-- One step of the colored outer loop, with the stack's colored pairs
    already resolved. -/
theorem edgesCAux_cons (L : List FrameName) (sel : Option Nat) (i : Nat)
    (E0 : Finset (Nat × Nat × List Char)) (stack : List FrameName) (loc : Locals)
    (rest : List (List FrameName × Locals)) (es : List (Nat × Nat × List Char))
    (hse : stackEdgesC L (if some i = sel ∧ i ≤ 256 then red else black) stack =
      some es) :
    edgesCAux L sel i (some E0) ((stack, loc) :: rest) =
      edgesCAux L sel (i + 1) (some (es.foldl (fun E e => insert e E) E0)) rest := by
  rw [edgesCAux, hse]
  rfl

/-- The highlight set of one rendering: the index pairs of the stack at the
    selected position `j`, stack positions counted from `i`. -/
def selIdxPairs (L : List FrameName) (j : Nat) :
    Nat → List (List FrameName × Locals) → Finset (Nat × Nat)
  | _, [] => ∅
  | i, (stack, _) :: rest =>
    (if i = j ∧ i ≤ 256 then
      ((ViewCallGraph.adjPairs stack).map
        (fun p => (ViewCallGraph.listIndex L p.1, ViewCallGraph.listIndex L p.2))).toFinset
    else ∅) ∪ selIdxPairs L j (i + 1) rest

/-- Main characterization: with every stack name enumerated, the colored
    edge computation succeeds and its red subset is exactly the selected
    stack's index pairs. -/
theorem edgesCAux_reds (L : List FrameName) (j : Nat) :
    ∀ (stks : List (List FrameName × Locals)) (i : Nat)
      (E0 : Finset (Nat × Nat × List Char)),
      (∀ p ∈ stks, ∀ n ∈ p.1, n ∈ L) →
      ∃ E, edgesCAux L (some j) i (some E0) stks = some E ∧
        reds E = reds E0 ∪ selIdxPairs L j i stks := by
  intro stks
  induction stks with
  | nil =>
    intro i E0 _
    refine ⟨E0, rfl, ?_⟩
    rw [selIdxPairs, Finset.union_empty]
  | cons q rest ih =>
    intro i E0 h
    obtain ⟨stack, loc⟩ := q
    have hmem : ∀ n ∈ stack, n ∈ L := h (stack, loc) (List.mem_cons_self _ _)
    by_cases hij : i = j ∧ i ≤ 256
    · have hcol : (if some i = some j ∧ i ≤ 256 then red else black) = red :=
        if_pos ⟨congrArg some hij.1, hij.2⟩
      have hse : stackEdgesC L
          (if some i = some j ∧ i ≤ 256 then red else black) stack =
          some ((ViewCallGraph.adjPairs stack).map (fun p =>
            (ViewCallGraph.listIndex L p.1, ViewCallGraph.listIndex L p.2, red))) := by
        rw [hcol]
        exact stackEdgesC_eq_of_mem L red stack hmem
      rw [edgesCAux_cons L (some j) i E0 stack loc rest _ hse]
      obtain ⟨E, hE, hreds⟩ := ih (i + 1) _
        (fun p hp n hn => h p (List.mem_cons.mpr (Or.inr hp)) n hn)
      refine ⟨E, hE, ?_⟩
      rw [hreds, reds_foldl_red, selIdxPairs, if_pos hij, Finset.union_assoc]
    · have hcol : (if some i = some j ∧ i ≤ 256 then red else black) = black :=
        if_neg (fun hc => hij ⟨Option.some.inj hc.1, hc.2⟩)
      have hse : stackEdgesC L
          (if some i = some j ∧ i ≤ 256 then red else black) stack =
          some ((ViewCallGraph.adjPairs stack).map (fun p =>
            (ViewCallGraph.listIndex L p.1, ViewCallGraph.listIndex L p.2, black))) := by
        rw [hcol]
        exact stackEdgesC_eq_of_mem L black stack hmem
      rw [edgesCAux_cons L (some j) i E0 stack loc rest _ hse]
      obtain ⟨E, hE, hreds⟩ := ih (i + 1) _
        (fun p hp n hn => h p (List.mem_cons.mpr (Or.inr hp)) n hn)
      refine ⟨E, hE, ?_⟩
      rw [hreds, reds_foldl_black, selIdxPairs, if_neg hij, Finset.empty_union]

/-- Positions that never hit the selected index contribute no highlight. -/
theorem selIdxPairs_none (L : List FrameName) (j : Nat) :
    ∀ (stks : List (List FrameName × Locals)) (i : Nat),
      (∀ k, k < stks.length → i + k ≠ j) → selIdxPairs L j i stks = ∅ := by
  intro stks
  induction stks with
  | nil => intro i _; rfl
  | cons q rest ih =>
    intro i h
    obtain ⟨stack, loc⟩ := q
    rw [selIdxPairs, if_neg (by
      intro hc
      exact h 0 (Nat.succ_pos rest.length) (by rw [Nat.add_zero]; exact hc.1)),
      Finset.empty_union]
    exact ih (i + 1) (fun k hk => by
      have := h (k + 1) (Nat.succ_lt_succ hk)
      omega)

/-- The highlight set is exactly the index pairs of the stack at the
    selected position. -/
theorem selIdxPairs_at (L : List FrameName) :
    ∀ (stks : List (List FrameName × Locals)) (i d : Nat)
      (stack : List FrameName) (loc : Locals),
      i + d ≤ 256 →
      stks[d]? = some (stack, loc) →
      selIdxPairs L (i + d) i stks =
        ((ViewCallGraph.adjPairs stack).map
          (fun p => (ViewCallGraph.listIndex L p.1, ViewCallGraph.listIndex L p.2))).toFinset := by
  intro stks
  induction stks with
  | nil =>
    intro i d stack loc _ h
    rw [List.getElem?_nil] at h
    cases h
  | cons q rest ih =>
    intro i d stack loc hle h
    obtain ⟨s0, l0⟩ := q
    cases d with
    | zero =>
      rw [List.getElem?_cons_zero] at h
      have hq := Option.some.inj h
      have hs : s0 = stack := congrArg Prod.fst hq
      rw [selIdxPairs, if_pos (by omega),
        selIdxPairs_none L (i + 0) rest (i + 1) (fun k hk => by omega),
        Finset.union_empty, hs]
    | succ d2 =>
      rw [List.getElem?_cons_succ] at h
      rw [selIdxPairs, if_neg (fun hc => by omega), Finset.empty_union,
        show i + (d2 + 1) = (i + 1) + d2 by omega]
      exact ih (i + 1) d2 stack loc (by omega) h

end ViewCallGraphInteractive

set_option maxRecDepth 100000 in
/-- Claim C6 fails as stated: the source compares `stack_index is
    selected_stack_index`, object identity, which for equal int values
    above CPython's interning range (0..256 here) is `False` — so on a
    session of 258 captures of the 2-frame trace `f <- g`, selecting the
    trace at index 257 highlights nothing, although that trace has the
    caller-to-callee adjacency `(id g, id f)` the claim requires to be
    distinguished. -/
theorem C6_counterexample :
    (ViewCallGraphInteractive.edgesC ["f".toList, "g".toList] (some 257)
        (ViewCallGraphInteractive.runSession
          (List.replicate 258 (["f".toList, "g".toList], ([] :
            ViewCallGraphInteractive.Locals)))).stacks_and_locals).map
      ViewCallGraphInteractive.reds = some ∅ ∧
    ViewCallGraph.stackEdges ["f".toList, "g".toList]
      (["f".toList, "g".toList].map tidy) = some [(1, 0)] ∧
    (∅ : Finset (Nat × Nat)) ≠ {(1, 0)} := by
  refine ⟨?_, ?_, ?_⟩
  · decide
  · decide
  · decide

/-- Claim C6 amended: for a captured trace whose normalized frames are
    `[f0, f1, f2]` (innermost first) and whose index is at most 256 — the
    range in which CPython's int interning makes the source's identity
    check behave as value equality — selecting it for highlighting
    distinguishes (colors red) exactly the two edges
    `(id f1, id f0)` and `(id f2, id f1)` — the caller-to-callee
    adjacencies of the trace, the caller being the frame one level further
    from the capture point — and no other edge of the aggregated graph.
    Beyond index 256 the identity check is false and nothing is
    highlighted (see the counterexample). -/
theorem C6_highlight_exact
    (raws : List (List (List Char) × ViewCallGraphInteractive.Locals))
    (L : List FrameName) (j : Nat) (f0 f1 f2 : FrameName)
    (loc : ViewCallGraphInteractive.Locals)
    (hL : ViewCallGraph.validEnum
      (ViewCallGraphInteractive.runSession raws).function_names L)
    (hj256 : j ≤ 256)
    (hj : (ViewCallGraphInteractive.runSession raws).stacks_and_locals[j]? =
      some ([f0, f1, f2], loc)) :
    ∃ E, ViewCallGraphInteractive.edgesC L (some j)
        (ViewCallGraphInteractive.runSession raws).stacks_and_locals = some E ∧
      ViewCallGraphInteractive.reds E =
        {(ViewCallGraph.listIndex L f1, ViewCallGraph.listIndex L f0),
         (ViewCallGraph.listIndex L f2, ViewCallGraph.listIndex L f1)} := by
  have hmem : ∀ p ∈ (ViewCallGraphInteractive.runSession raws).stacks_and_locals,
      ∀ n ∈ p.1, n ∈ L := fun p hp n hn =>
    (ViewCallGraph.validEnum_mem hL n).mpr
      (ViewCallGraphInteractive.stacks_subset_names_locals raws p hp n hn)
  obtain ⟨E, hE, hreds⟩ := ViewCallGraphInteractive.edgesCAux_reds L j
    (ViewCallGraphInteractive.runSession raws).stacks_and_locals 0 ∅ hmem
  refine ⟨E, hE, ?_⟩
  have hsel := ViewCallGraphInteractive.selIdxPairs_at L
    (ViewCallGraphInteractive.runSession raws).stacks_and_locals 0 j
    [f0, f1, f2] loc (by omega) hj
  rw [Nat.zero_add] at hsel
  rw [hreds, ViewCallGraphInteractive.reds_empty, Finset.empty_union, hsel]
  show ([(ViewCallGraph.listIndex L f1, ViewCallGraph.listIndex L f0),
    (ViewCallGraph.listIndex L f2, ViewCallGraph.listIndex L f1)]).toFinset = _
  rw [List.toFinset_cons, List.toFinset_cons, List.toFinset_nil,
    insert_emptyc_eq]

/-- Witness for claim C6: a one-trace session with frames `a`, `b`, `c`
    (innermost first), highlighted. -/
theorem C6_highlight_exact_witness :
    ∃ E, ViewCallGraphInteractive.edgesC ["a".toList, "b".toList, "c".toList]
        (some 0)
        (ViewCallGraphInteractive.runSession
          [(["a".toList, "b".toList, "c".toList], [])]).stacks_and_locals =
        some E ∧
      ViewCallGraphInteractive.reds E =
        {(ViewCallGraph.listIndex ["a".toList, "b".toList, "c".toList] "b".toList,
          ViewCallGraph.listIndex ["a".toList, "b".toList, "c".toList] "a".toList),
         (ViewCallGraph.listIndex ["a".toList, "b".toList, "c".toList] "c".toList,
          ViewCallGraph.listIndex ["a".toList, "b".toList, "c".toList] "b".toList)} := by
  have hL : ViewCallGraph.validEnum
      (ViewCallGraphInteractive.runSession
        [(["a".toList, "b".toList, "c".toList], [])]).function_names
      ["a".toList, "b".toList, "c".toList] := by
    show List.Perm _ _
    have heq : (ViewCallGraphInteractive.runSession
        [(["a".toList, "b".toList, "c".toList], [])]).function_names =
        ["a".toList, "b".toList, "c".toList] := by decide
    rw [heq]
  exact C6_highlight_exact [(["a".toList, "b".toList, "c".toList], [])]
    ["a".toList, "b".toList, "c".toList] 0 "a".toList "b".toList "c".toList []
    hL (by decide) (by decide)
